import Mathlib

/-!
Shallow embedding of the `grux` grid-drawing library (src/src/lib.rs and
src/src/art.rs), together with theorems settling the specification claims.

Rust `String` buffers are modelled as `List Char` (sequences of Unicode scalar
values); byte sinks (`impl std::io::Write`) are modelled as `List Nat` byte
lists; `Vec<Vec<T>>` as `List (List T)`; fixed-size `[[T; W]; H]` arrays as
functions `Fin h → Fin w → T`.  The `Display` trait is modelled by an explicit
rendering function `T → List Char`, and `Default` by an explicit default value.
-/

namespace Grux

/-- A Rust `String`/`&str`, modelled as its sequence of Unicode scalar values. -/
abbrev Str := List Char

/-! ## Rust `char::is_whitespace` (Unicode `White_Space` property) -/

/-- Rust `char::is_whitespace`: the Unicode `White_Space` code points. -/
def isWs (c : Char) : Bool :=
  [0x9, 0xA, 0xB, 0xC, 0xD, 0x20, 0x85, 0xA0, 0x1680,
   0x2000, 0x2001, 0x2002, 0x2003, 0x2004, 0x2005, 0x2006, 0x2007,
   0x2008, 0x2009, 0x200A, 0x2028, 0x2029, 0x202F, 0x205F, 0x3000].contains c.toNat

/-- Rust `str::trim_end`: remove the longest whitespace suffix. -/
def trimEnd (s : Str) : Str :=
  (s.reverse.dropWhile isWs).reverse

/-! ## Rust `str::lines` -/

/-- Split a string at every `'\n'`, keeping all pieces (so a trailing `'\n'`
produces a trailing empty piece).  Never returns `[]`. -/
def splitNl : Str → List Str
  | [] => [[]]
  | c :: rest =>
    match splitNl rest with
    | [] => [[c]]
    | p :: ps => if c = '\n' then [] :: p :: ps else (c :: p) :: ps

/-- Remove one trailing `'\r'` if present (the `\r\n` half of `str::lines`). -/
def stripCr (s : Str) : Str :=
  match s.getLast? with
  | some c => if c = '\r' then s.dropLast else s
  | none => s

/-- Rust `str::lines`: split at `'\n'`; every terminated piece has a trailing
`'\r'` stripped; a final unterminated piece is kept as-is; a final empty piece
(from a trailing line break) is dropped. -/
def rustLines (s : Str) : List Str :=
  (splitNl s).dropLast.map stripCr ++
    (match (splitNl s).getLast? with
     | some l => if l = [] then [] else [l]
     | none => [])

/-! ## `<String as GridWriter>::draw` (src/src/lib.rs lines 346-374) -/

/-- One `rows.push("")` iteration, run `n` times (`n` is the iteration count
of the `while` loop, fixed up front so the recursion is structural). -/
def growRowsGo : Nat → List Str → List Str
  | 0, rows => rows
  | n + 1, rows => growRowsGo n (rows ++ [[]])

/-- The `while rows.len() <= y { rows.push(""); }` loop: it runs exactly
`y + 1 - rows.len()` times. -/
def growRows (rows : List Str) (y : Nat) : List Str :=
  growRowsGo (y + 1 - rows.length) rows

/-- One `row.push(' ')` iteration, run `n` times. -/
def padRowGo : Nat → Str → Str
  | 0, row => row
  | n + 1, row => padRowGo n (row ++ [' '])

/-- The `while row.len() <= x { row.push(' '); }` loop: it runs exactly
`x + 1 - row.len()` times. -/
def padRow (row : Str) (x : Nat) : Str :=
  padRowGo (x + 1 - row.length) row

/-- `rows.join("\n")`. -/
def joinNl : List Str → Str
  | [] => []
  | [r] => r
  | r :: rs => r ++ '\n' :: joinNl rs

/-- `<String as GridWriter>::draw`: collect `self.lines()`, grow the rows to
cover `y`, pad row `y` with spaces to cover `x`, overwrite position `x`,
trim trailing whitespace from the modified row, and re-join with `'\n'`. -/
def drawString (s : Str) (x y : Nat) (c : Char) : Str :=
  let rows := growRows (rustLines s) y
  let row := padRow (rows.getD y []) x
  joinNl (rows.set y (trimEnd (row.set x c)))

/-- The description in the claim of the growable-text-buffer write, spelled with
`List.replicate` paddings: split into lines (no extra empty line from a
trailing line break), append empty lines until line `y` exists, pad line `y`
with spaces until its length exceeds `x`, replace the character at offset `x`,
trim trailing whitespace from the modified line, re-join with `'\n'`. -/
def specTextWrite (s : Str) (x y : Nat) (c : Char) : Str :=
  let ls := rustLines s ++ List.replicate (y + 1 - (rustLines s).length) []
  let row := ls.getD y [] ++ List.replicate (x + 1 - (ls.getD y []).length) ' '
  joinNl (ls.set y (trimEnd (row.set x c)))

/-! ## `<Vec<Vec<T>> as GridWriter>::draw` (src/src/lib.rs lines 275-289) -/

/-- `<Vec<Vec<T>> as GridWriter>::draw`; `d` models `T::default()`. -/
def drawVec {α : Type _} (v : List (List α)) (x y : Nat) (e d : α) :
    List (List α) :=
  let v' := if v.length ≤ y then v ++ List.replicate (y + 1 - v.length) [] else v
  let row := v'.getD y []
  let row' := if row.length ≤ x then row ++ List.replicate (x + 1 - row.length) d else row
  v'.set y (row'.set x e)

/-! ## `<[[T; W]; H] as GridWriter>::draw` (src/src/lib.rs lines 216-219) -/

/-- `<[[T; W]; H] as GridWriter>::draw`: plain in-bounds overwrite. -/
def drawArray {α : Type _} {w h : Nat} (g : Fin h → Fin w → α)
    (x : Fin w) (y : Fin h) (e : α) : Fin h → Fin w → α :=
  fun i j => if i = y ∧ j = x then e else g i j

/-! ## UTF-8 (for `String::from_utf8` in `DisplayGrid::to_string`) -/

/-- A UTF-8 continuation byte. -/
def isCont (b : Nat) : Bool := 0x80 ≤ b ∧ b < 0xC0

/-- A Unicode scalar value (what a Rust `char` may hold). -/
def isScalar (n : Nat) : Prop := n < 0xD800 ∨ (0xE000 ≤ n ∧ n < 0x110000)

instance (n : Nat) : Decidable (isScalar n) := by unfold isScalar; infer_instance

/-- UTF-8 encoding of a single scalar value. -/
def encodeCp (n : Nat) : List Nat :=
  if n < 0x80 then [n]
  else if n < 0x800 then [0xC0 + n / 0x40, 0x80 + n % 0x40]
  else if n < 0x10000 then
    [0xE0 + n / 0x1000, 0x80 + n / 0x40 % 0x40, 0x80 + n % 0x40]
  else
    [0xF0 + n / 0x40000, 0x80 + n / 0x1000 % 0x40, 0x80 + n / 0x40 % 0x40,
     0x80 + n % 0x40]

/-- UTF-8 encoding of a sequence of scalar values. -/
def utf8Encode (l : List Nat) : List Nat := l.flatMap encodeCp

/-- Decode one UTF-8-encoded scalar value from a leading byte `b` and the
remaining bytes, returning the scalar value and the unconsumed rest.
Rejects bad continuation bytes, overlong forms, surrogates and code points
above `0x10FFFF` (the checks performed by `String::from_utf8`). -/
def utf8DecodeOne (b : Nat) (bs : List Nat) : Option (Nat × List Nat) :=
  if b < 0x80 then some (b, bs)
  else if b < 0xC2 then none
  else if b < 0xE0 then
    match bs with
    | b1 :: bs1 =>
      if isCont b1 then some ((b - 0xC0) * 0x40 + (b1 - 0x80), bs1) else none
    | _ => none
  else if b < 0xF0 then
    match bs with
    | b1 :: b2 :: bs2 =>
      if isCont b1 && isCont b2 && (decide (0xE0 < b) || decide (0xA0 ≤ b1)) &&
          (decide (b ≠ 0xED) || decide (b1 < 0xA0)) then
        some ((b - 0xE0) * 0x1000 + (b1 - 0x80) * 0x40 + (b2 - 0x80), bs2)
      else none
    | _ => none
  else if b < 0xF5 then
    match bs with
    | b1 :: b2 :: b3 :: bs3 =>
      if isCont b1 && isCont b2 && isCont b3 &&
          (decide (0xF0 < b) || decide (0x90 ≤ b1)) &&
          (decide (b ≠ 0xF4) || decide (b1 < 0x90)) then
        some ((b - 0xF0) * 0x40000 + (b1 - 0x80) * 0x1000 + (b2 - 0x80) * 0x40 +
          (b3 - 0x80), bs3)
      else none
    | _ => none
  else none

/-- Fuelled UTF-8 decoding loop; the fuel only has to dominate the number of
decoded characters, which `utf8Decode` below instantiates with the byte
count. -/
def utf8DecodeGo : Nat → List Nat → Option (List Nat)
  | _, [] => some []
  | 0, _ :: _ => none
  | fuel + 1, b :: bs =>
    match utf8DecodeOne b bs with
    | some (cp, rest) => (utf8DecodeGo fuel rest).map fun l => cp :: l
    | none => none

/-- Strict UTF-8 decoding of a whole byte sequence (the validation performed
by `String::from_utf8`): the scalar values, or `none` for invalid UTF-8. -/
def utf8Decode (l : List Nat) : Option (List Nat) := utf8DecodeGo l.length l

/-- The bytes `write!(stream, "{}", ...)` appends for a piece of text. -/
def strBytes (s : Str) : List Nat := (s.map Char.toNat).flatMap encodeCp

/-! ## `DisplayGrid` (src/src/lib.rs lines 130-184, 223-236, 293-306, 380-388) -/

/-- The default `DisplayGrid::to_string` (src/src/lib.rs lines 157-161):
print into a fresh in-memory byte sink, then `String::from_utf8`.  The
argument is the byte output of `print`; the result is the decoded scalar
sequence or a `FromUtf8Error`. -/
def toStringDefault (bytes : List Nat) : Except Unit (List Nat) :=
  match utf8Decode bytes with
  | some l => Except.ok l
  | none => Except.error ()

/-- `<Vec<Vec<T>> as DisplayGrid>::print` (src/src/lib.rs lines 297-305):
for each row, write the text form of each element, then a newline. -/
def printNested {α : Type _} (disp : α → Str) (g : List (List α)) : List Nat :=
  g.foldl (fun acc row =>
    (row.foldl (fun a e => a ++ strBytes (disp e)) acc) ++ strBytes ['\n']) []

/-- `<[[T; W]; H] as DisplayGrid>::print` (src/src/lib.rs lines 227-235):
identical loop over the fixed-size array. -/
def printArray {α : Type _} {w h : Nat} (disp : α → Str)
    (g : Fin h → Fin w → α) : List Nat :=
  (List.finRange h).foldl (fun acc i =>
    ((List.finRange w).foldl (fun a j => a ++ strBytes (disp (g i j))) acc) ++
      strBytes ['\n']) []

/-- `<Vec<Vec<T>> as DisplayGrid>::to_string`: the trait default, not
overridden (src/src/lib.rs lines 293-306). -/
def vecToString {α : Type _} (disp : α → Str) (g : List (List α)) :
    Except Unit (List Nat) :=
  toStringDefault (printNested disp g)

/-- `<String as DisplayGrid>::to_string` override (src/src/lib.rs lines
381-383): `Ok(self.clone())`. -/
def stringToString (s : Str) : Except Unit Str := Except.ok s

/-- `<String as DisplayGrid>::print` (src/src/lib.rs lines 385-387):
`write!(stream, "{}", self)` — append the raw content's bytes to the sink. -/
def stringPrint (stream : List Nat) (s : Str) : List Nat := stream ++ strBytes s

/-! ## `grux::art` sprites (src/src/art.rs) -/

/-- `BorderRect<T>` (src/src/art.rs lines 254-258): width, height and the
8-element palette (top-left, top, top-right, left, right, bottom-left,
bottom, bottom-right). -/
structure BorderRect (α : Type _) where
  width : Nat
  height : Nat
  render : Fin 8 → α

/-- `BorderRect::new` (src/src/art.rs lines 277-285): the two `assert!`s are
modelled as returning `none` (a panic) when violated. -/
def borderRectNew {α : Type _} (width height : Nat) (render : Fin 8 → α) :
    Option (BorderRect α) :=
  if 2 ≤ width then
    if 2 ≤ height then some ⟨width, height, render⟩ else none
  else none

/-- `<BorderRect<T> as Sprite>::draw_to` (src/src/art.rs lines 332-355),
modelled as the ordered list of `(position, element)` write calls it issues
to the underlying `GridWriter`: top/bottom edges for `i in 1..width-1`,
left/right edges for `i in 1..height-1`, then the four corners. -/
def borderDrawTo {α : Type _} (br : BorderRect α) (x y : Nat) :
    List ((Nat × Nat) × α) :=
  ((List.range' 1 (br.width - 2)).flatMap fun i =>
    [((x + i, y), br.render 1), ((x + i, y + br.height - 1), br.render 6)]) ++
  ((List.range' 1 (br.height - 2)).flatMap fun i =>
    [((x, y + i), br.render 3), ((x + br.width - 1, y + i), br.render 4)]) ++
  [((x, y), br.render 0), ((x + br.width - 1, y), br.render 2),
   ((x, y + br.height - 1), br.render 5),
   ((x + br.width - 1, y + br.height - 1), br.render 7)]

/-! ## Closed forms for the growth loops -/

theorem growRowsGo_eq (n : Nat) (rows : List Str) :
    growRowsGo n rows = rows ++ List.replicate n [] := by
  induction n generalizing rows with
  | zero => simp [growRowsGo]
  | succ n ih => simp [growRowsGo, ih, List.replicate_succ]

theorem growRows_eq (rows : List Str) (y : Nat) :
    growRows rows y = rows ++ List.replicate (y + 1 - rows.length) [] :=
  growRowsGo_eq _ _

theorem padRowGo_eq (n : Nat) (row : Str) :
    padRowGo n row = row ++ List.replicate n ' ' := by
  induction n generalizing row with
  | zero => simp [padRowGo]
  | succ n ih => simp [padRowGo, ih, List.replicate_succ]

theorem padRow_eq (row : Str) (x : Nat) :
    padRow row x = row ++ List.replicate (x + 1 - row.length) ' ' :=
  padRowGo_eq _ _

/-! ## Generic list helpers -/

theorem replicate_set_last {α : Type _} (k : Nat) (d e : α) :
    (List.replicate (k + 1) d).set k e = List.replicate k d ++ [e] := by
  induction k with
  | zero => rfl
  | succ k ih =>
    rw [List.replicate_succ, List.set_cons_succ, ih, List.replicate_succ,
      List.cons_append]

theorem set_append_replicate {α : Type _} (a : List α) (x : Nat)
    (h : a.length ≤ x) (d e : α) :
    (a ++ List.replicate (x + 1 - a.length) d).set x e
      = a ++ (List.replicate (x - a.length) d ++ [e]) := by
  rw [List.set_append, if_neg (by omega),
    show x + 1 - a.length = (x - a.length) + 1 from by omega, replicate_set_last]

theorem sum_map_length_mono {α : Type _} :
    ∀ (l₁ l₂ : List (List α)), l₁.length ≤ l₂.length →
      (∀ i, (l₁.getD i []).length ≤ (l₂.getD i []).length) →
      (l₁.map List.length).sum ≤ (l₂.map List.length).sum
  | [], _, _, _ => by simp
  | _ :: _, [], h, _ => by simp at h
  | a :: t₁, b :: t₂, h, hp => by
    simp only [List.map_cons, List.sum_cons]
    have h0 := hp 0
    simp only [List.getD_cons_zero] at h0
    refine Nat.add_le_add h0 (sum_map_length_mono t₁ t₂ (by simpa using h) ?_)
    intro i
    simpa using hp (i + 1)

/-! ## A normal form for `drawVec` -/

theorem drawVec_eq {α : Type _} (v : List (List α)) (x y : Nat) (e d : α) :
    drawVec v x y e d =
      (v ++ List.replicate (y + 1 - v.length) []).set y
        ((v.getD y [] ++ List.replicate (x + 1 - (v.getD y []).length) d).set x e) := by
  unfold drawVec
  by_cases hy : v.length ≤ y
  · simp only [if_pos hy]
    have hrow : (v ++ List.replicate (y + 1 - v.length) []).getD y [] = v.getD y [] := by
      rw [List.getD_eq_getElem?_getD, List.getD_eq_getElem?_getD,
        List.getElem?_append_right hy, List.getElem?_replicate,
        if_pos (by omega), List.getElem?_eq_none hy]
      rfl
    rw [hrow]
    by_cases hx : (v.getD y []).length ≤ x
    · simp only [if_pos hx]
    · simp only [if_neg hx, show x + 1 - (v.getD y []).length = 0 from by omega,
        List.replicate_zero, List.append_nil]
  · simp only [if_neg hy, show y + 1 - v.length = 0 from by omega,
      List.replicate_zero, List.append_nil]
    by_cases hx : (v.getD y []).length ≤ x
    · simp only [if_pos hx]
    · simp only [if_neg hx, show x + 1 - (v.getD y []).length = 0 from by omega,
        List.replicate_zero, List.append_nil]

theorem drawVec_length {α : Type _} (v : List (List α)) (x y : Nat) (e d : α) :
    (drawVec v x y e d).length = max v.length (y + 1) := by
  rw [drawVec_eq]
  simp only [List.length_set, List.length_append, List.length_replicate]
  omega

theorem drawVec_getElem?_ne {α : Type _} (v : List (List α)) (x y : Nat)
    (e d : α) (i : Nat) (hiy : i ≠ y) :
    (drawVec v x y e d)[i]? =
      if i < v.length then v[i]? else if i ≤ y then some [] else none := by
  rw [drawVec_eq, List.getElem?_set_ne (fun hh => hiy hh.symm)]
  by_cases hi : i < v.length
  · rw [List.getElem?_append_left hi, if_pos hi]
  · rw [List.getElem?_append_right (by omega), List.getElem?_replicate, if_neg hi]
    by_cases hiy2 : i ≤ y
    · rw [if_pos (by omega), if_pos hiy2]
    · rw [if_neg (by omega), if_neg hiy2]

theorem drawVec_getElem?_self {α : Type _} (v : List (List α)) (x y : Nat)
    (e d : α) :
    (drawVec v x y e d)[y]? =
      some ((v.getD y [] ++ List.replicate (x + 1 - (v.getD y []).length) d).set x e) := by
  rw [drawVec_eq, List.getElem?_set_self]
  simp only [List.length_append, List.length_replicate]
  omega

/-! ## Claim theorems: C1, C2, C3, C5 -/

/-- C1: for every growable text buffer, position and character, `String::draw`
produces exactly the state described by the spec (split into lines without an
extra empty line for a trailing line break, append empty lines to reach line
`y`, pad line `y` with spaces past `x`, replace the character at `x`, trim
trailing whitespace, re-join with `'\n'`); in particular writing `'9'` at
`(1,1)` into `"012\n345\n678\n"` yields `"012\n395\n678"`. -/
theorem string_draw_matches_spec :
    (∀ (s : Str) (x y : Nat) (c : Char), drawString s x y c = specTextWrite s x y c) ∧
    drawString "012\n345\n678\n".toList 1 1 '9' = "012\n395\n678".toList := by
  constructor
  · intro s x y c
    simp only [drawString, specTextWrite, growRows_eq, padRow_eq]
  · decide

/-- C2: writing into a growable nested buffer at `(x,y)` with `y` at least the
row count yields exactly `y+1` rows with all newly created rows before `y`
empty; writing with `x` at least the length of row `y` pads row `y` with
default elements up to `x-1` and puts the element at `x`. -/
theorem vec_draw_growth {α : Type _} (v : List (List α)) (x y : Nat) (e d : α) :
    (v.length ≤ y →
      (drawVec v x y e d).length = y + 1 ∧
      ∀ i, v.length ≤ i → i < y → (drawVec v x y e d).getD i [] = []) ∧
    ((v.getD y []).length ≤ x →
      (drawVec v x y e d).getD y [] =
        v.getD y [] ++ List.replicate (x - (v.getD y []).length) d ++ [e]) := by
  constructor
  · intro hy
    constructor
    · rw [drawVec_length]; omega
    · intro i hi1 hi2
      rw [List.getD_eq_getElem?_getD, drawVec_getElem?_ne v x y e d i (by omega),
        if_neg (by omega), if_pos (by omega)]
      rfl
  · intro hx
    rw [show (drawVec v x y e d).getD y [] = ((drawVec v x y e d)[y]?).getD [] from
        List.getD_eq_getElem?_getD _ _ _,
      drawVec_getElem?_self, Option.getD_some, set_append_replicate _ _ hx,
      List.append_assoc]

/-- C3 counterexample: a write into a growable text buffer can shrink it.
Writing a space at `(1,0)` into `"ab"` trims the line to `"a"`: the total
content size decreases, refuting the claim for the `String` buffer. -/
theorem string_draw_can_shrink :
    ¬ ("ab".toList.length ≤ (drawString "ab".toList 1 0 ' ').length) := by decide

/-- C3 (amended): for the growable nested buffer, a write never shrinks the
buffer: the row count never decreases, no row gets shorter, and the total
content size never decreases.  (For the growable text buffer this fails:
trailing-whitespace trimming can shorten a line and the total content.) -/
theorem vec_draw_only_grows {α : Type _} (v : List (List α)) (x y : Nat) (e d : α) :
    v.length ≤ (drawVec v x y e d).length ∧
    (∀ i, (v.getD i []).length ≤ ((drawVec v x y e d).getD i []).length) ∧
    (v.map List.length).sum ≤ ((drawVec v x y e d).map List.length).sum := by
  have hlen : v.length ≤ (drawVec v x y e d).length := by
    rw [drawVec_length]; omega
  have hrows : ∀ i, (v.getD i []).length ≤ ((drawVec v x y e d).getD i []).length := by
    intro i
    by_cases hiy : i = y
    · subst hiy
      rw [show (drawVec v x i e d).getD i [] = ((drawVec v x i e d)[i]?).getD [] from
          List.getD_eq_getElem?_getD _ _ _, drawVec_getElem?_self]
      simp only [Option.getD_some, List.length_set, List.length_append,
        List.length_replicate]
      omega
    · rw [show (drawVec v x y e d).getD i [] = ((drawVec v x y e d)[i]?).getD [] from
          List.getD_eq_getElem?_getD _ _ _, drawVec_getElem?_ne v x y e d i hiy]
      by_cases hi : i < v.length
      · rw [if_pos hi, ← List.getD_eq_getElem?_getD]
      · rw [if_neg hi]
        have hnil : v.getD i [] = [] := by
          rw [List.getD_eq_getElem?_getD, List.getElem?_eq_none (by omega)]
          rfl
        rw [hnil]
        simp
  exact ⟨hlen, hrows, sum_map_length_mono v _ hlen hrows⟩

/-- C5: `BorderRect::new` fails (panics) exactly when `width < 2` or
`height < 2`, and succeeds for every width and height at least 2 and any
palette. -/
theorem borderRect_new_iff {α : Type _} (w h : Nat) (render : Fin 8 → α) :
    ((borderRectNew w h render).isSome ↔ (2 ≤ w ∧ 2 ≤ h)) ∧
    ((borderRectNew w h render = none) ↔ (w < 2 ∨ h < 2)) := by
  unfold borderRectNew
  split_ifs with h1 h2 <;> simp <;> omega


/-! ## UTF-8 encode/decode correctness -/

theorem utf8DecodeOne_sound {b cp : Nat} {bs rest : List Nat}
    (h : utf8DecodeOne b bs = some (cp, rest)) :
    isScalar cp ∧ encodeCp cp ++ rest = b :: bs := by
  unfold utf8DecodeOne at h
  by_cases h1 : b < 0x80
  · rw [if_pos h1] at h
    simp only [Option.some.injEq, Prod.mk.injEq] at h
    obtain ⟨rfl, rfl⟩ := h
    refine ⟨Or.inl (by omega), ?_⟩
    rw [encodeCp, if_pos h1]
    rfl
  · rw [if_neg h1] at h
    by_cases h2 : b < 0xC2
    · rw [if_pos h2] at h
      exact absurd h (by simp)
    · rw [if_neg h2] at h
      by_cases h3 : b < 0xE0
      · rw [if_pos h3] at h
        cases bs with
        | nil => exact absurd h (by simp)
        | cons b1 bs1 =>
          by_cases hc : isCont b1
          · simp only [hc, if_true, Option.some.injEq, Prod.mk.injEq] at h
            obtain ⟨rfl, rfl⟩ := h
            simp only [isCont, decide_eq_true_eq] at hc
            refine ⟨Or.inl (by omega), ?_⟩
            rw [encodeCp, if_neg (by omega), if_pos (by omega)]
            simp only [List.cons_append, List.nil_append, List.cons.injEq]
            exact ⟨by omega, by omega, trivial⟩
          · simp only [hc, if_false] at h
            exact absurd h (by simp)
      · rw [if_neg h3] at h
        by_cases h4 : b < 0xF0
        · rw [if_pos h4] at h
          match bs with
          | [] => exact absurd h (by simp)
          | [b1] => exact absurd h (by simp)
          | b1 :: b2 :: bs2 =>
            by_cases hc : (isCont b1 && isCont b2 &&
                (decide (0xE0 < b) || decide (0xA0 ≤ b1)) &&
                (decide (b ≠ 0xED) || decide (b1 < 0xA0))) = true
            · simp only [hc, if_true, Option.some.injEq, Prod.mk.injEq] at h
              obtain ⟨rfl, rfl⟩ := h
              simp only [isCont, Bool.and_eq_true, Bool.or_eq_true,
                decide_eq_true_eq] at hc
              obtain ⟨⟨⟨hb1, hb2⟩, hlow⟩, hsur⟩ := hc
              constructor
              · unfold isScalar
                omega
              · rw [encodeCp, if_neg (by omega), if_neg (by omega), if_pos (by omega)]
                simp only [List.cons_append, List.nil_append, List.cons.injEq]
                exact ⟨by omega, by omega, by omega, trivial⟩
            · simp only [hc, if_false] at h
              exact absurd h (by simp)
        · rw [if_neg h4] at h
          by_cases h5 : b < 0xF5
          · rw [if_pos h5] at h
            match bs with
            | [] => exact absurd h (by simp)
            | [b1] => exact absurd h (by simp)
            | [b1, b2] => exact absurd h (by simp)
            | b1 :: b2 :: b3 :: bs3 =>
              by_cases hc : (isCont b1 && isCont b2 && isCont b3 &&
                  (decide (0xF0 < b) || decide (0x90 ≤ b1)) &&
                  (decide (b ≠ 0xF4) || decide (b1 < 0x90))) = true
              · simp only [hc, if_true, Option.some.injEq, Prod.mk.injEq] at h
                obtain ⟨rfl, rfl⟩ := h
                simp only [isCont, Bool.and_eq_true, Bool.or_eq_true,
                  decide_eq_true_eq] at hc
                obtain ⟨⟨⟨⟨hb1, hb2⟩, hb3⟩, hlow⟩, hhi⟩ := hc
                constructor
                · unfold isScalar
                  omega
                · rw [encodeCp, if_neg (by omega), if_neg (by omega),
                    if_neg (by omega)]
                  simp only [List.cons_append, List.nil_append, List.cons.injEq]
                  exact ⟨by omega, by omega, by omega, by omega, trivial⟩
              · simp only [hc, if_false] at h
                exact absurd h (by simp)
          · rw [if_neg h5] at h
            exact absurd h (by simp)

theorem encodeCp_length_pos (c : Nat) : 1 ≤ (encodeCp c).length := by
  unfold encodeCp
  split_ifs <;> simp

theorem utf8DecodeOne_rest_le {b cp : Nat} {bs rest : List Nat}
    (h : utf8DecodeOne b bs = some (cp, rest)) : rest.length ≤ bs.length := by
  have h2 := (utf8DecodeOne_sound h).2
  have h3 := congrArg List.length h2
  simp only [List.length_append, List.length_cons] at h3
  have := encodeCp_length_pos cp
  omega

theorem utf8DecodeGo_congr :
    ∀ (f1 : Nat) (l : List Nat) (f2 : Nat), l.length ≤ f1 → l.length ≤ f2 →
      utf8DecodeGo f1 l = utf8DecodeGo f2 l := by
  intro f1
  induction f1 with
  | zero =>
    intro l f2 h1 _
    have : l = [] := by
      cases l with
      | nil => rfl
      | cons a t => simp at h1
    subst this
    cases f2 <;> rfl
  | succ g1 ih =>
    intro l f2 h1 h2
    cases l with
    | nil => cases f2 <;> rfl
    | cons b bs =>
      cases f2 with
      | zero => simp at h2
      | succ g2 =>
        simp only [utf8DecodeGo]
        cases hone : utf8DecodeOne b bs with
        | none => rfl
        | some pr =>
          obtain ⟨cp, rest⟩ := pr
          have hr := utf8DecodeOne_rest_le hone
          simp only [List.length_cons] at h1 h2
          dsimp only
          rw [ih rest g2 (by omega) (by omega)]

theorem utf8Decode_cons (b : Nat) (bs : List Nat) :
    utf8Decode (b :: bs) =
      match utf8DecodeOne b bs with
      | some (cp, rest) => (utf8Decode rest).map fun l => cp :: l
      | none => none := by
  unfold utf8Decode
  simp only [List.length_cons, utf8DecodeGo]
  cases hone : utf8DecodeOne b bs with
  | none => rfl
  | some pr =>
    obtain ⟨cp, rest⟩ := pr
    have hr := utf8DecodeOne_rest_le hone
    dsimp only
    rw [utf8DecodeGo_congr bs.length rest rest.length (by omega) (by omega)]

theorem utf8Decode_encodeCp_append {c : Nat} (hc : isScalar c) (t : List Nat) :
    utf8Decode (encodeCp c ++ t) = (utf8Decode t).map fun l => c :: l := by
  unfold isScalar at hc
  unfold encodeCp
  by_cases h1 : c < 0x80
  · rw [if_pos h1]
    simp only [List.cons_append, List.nil_append]
    rw [utf8Decode_cons]
    unfold utf8DecodeOne
    rw [if_pos h1]
  · rw [if_neg h1]
    by_cases h2 : c < 0x800
    · rw [if_pos h2]
      simp only [List.cons_append, List.nil_append]
      rw [utf8Decode_cons]
      unfold utf8DecodeOne
      rw [if_neg (by omega), if_neg (by omega), if_pos (by omega)]
      have hcont : isCont (0x80 + c % 0x40) = true := by
        simp only [isCont, decide_eq_true_eq]
        omega
      simp only [hcont, if_true]
      rw [show (0xC0 + c / 0x40 - 0xC0) * 0x40 + (0x80 + c % 0x40 - 0x80) = c
        from by omega]
    · rw [if_neg h2]
      by_cases h3 : c < 0x10000
      · rw [if_pos h3]
        simp only [List.cons_append, List.nil_append]
        rw [utf8Decode_cons]
        unfold utf8DecodeOne
        rw [if_neg (by omega), if_neg (by omega), if_neg (by omega),
          if_pos (by omega)]
        have hcond : (isCont (0x80 + c / 0x40 % 0x40) && isCont (0x80 + c % 0x40) &&
            (decide (0xE0 < 0xE0 + c / 0x1000) || decide (0xA0 ≤ 0x80 + c / 0x40 % 0x40)) &&
            (decide (0xE0 + c / 0x1000 ≠ 0xED) || decide (0x80 + c / 0x40 % 0x40 < 0xA0))) = true := by
          simp only [isCont, Bool.and_eq_true, Bool.or_eq_true, decide_eq_true_eq]
          refine ⟨⟨⟨by omega, by omega⟩, by omega⟩, by omega⟩
        simp only [hcond, if_true]
        rw [show (0xE0 + c / 0x1000 - 0xE0) * 0x1000 +
            (0x80 + c / 0x40 % 0x40 - 0x80) * 0x40 + (0x80 + c % 0x40 - 0x80) = c
          from by omega]
      · rw [if_neg h3]
        simp only [List.cons_append, List.nil_append]
        rw [utf8Decode_cons]
        unfold utf8DecodeOne
        rw [if_neg (by omega), if_neg (by omega), if_neg (by omega),
          if_neg (by omega), if_pos (by omega)]
        have hcond : (isCont (0x80 + c / 0x1000 % 0x40) && isCont (0x80 + c / 0x40 % 0x40) &&
            isCont (0x80 + c % 0x40) &&
            (decide (0xF0 < 0xF0 + c / 0x40000) || decide (0x90 ≤ 0x80 + c / 0x1000 % 0x40)) &&
            (decide (0xF0 + c / 0x40000 ≠ 0xF4) || decide (0x80 + c / 0x1000 % 0x40 < 0x90))) = true := by
          simp only [isCont, Bool.and_eq_true, Bool.or_eq_true, decide_eq_true_eq]
          refine ⟨⟨⟨⟨by omega, by omega⟩, by omega⟩, by omega⟩, by omega⟩
        simp only [hcond, if_true]
        rw [show (0xF0 + c / 0x40000 - 0xF0) * 0x40000 +
            (0x80 + c / 0x1000 % 0x40 - 0x80) * 0x1000 +
            (0x80 + c / 0x40 % 0x40 - 0x80) * 0x40 + (0x80 + c % 0x40 - 0x80) = c
          from by omega]

theorem utf8Decode_encode {l : List Nat} (h : ∀ c ∈ l, isScalar c) :
    utf8Decode (utf8Encode l) = some l := by
  induction l with
  | nil => rfl
  | cons c t ih =>
    have hstep : utf8Encode (c :: t) = encodeCp c ++ utf8Encode t := by
      simp [utf8Encode]
    rw [hstep, utf8Decode_encodeCp_append (h c (List.mem_cons_self c t)),
      ih fun d hd => h d (List.mem_cons_of_mem c hd)]
    rfl

theorem utf8Decode_sound :
    ∀ (l : List Nat) (bs : List Nat), utf8Decode bs = some l →
      (∀ c ∈ l, isScalar c) ∧ utf8Encode l = bs := by
  intro l
  induction l with
  | nil =>
    intro bs h
    cases bs with
    | nil => exact ⟨by simp, rfl⟩
    | cons b bs2 =>
      rw [utf8Decode_cons] at h
      cases hone : utf8DecodeOne b bs2 with
      | none => rw [hone] at h; exact absurd h (by simp)
      | some pr =>
        obtain ⟨cp, rest⟩ := pr
        rw [hone] at h
        simp at h
  | cons c t ih =>
    intro bs h
    cases bs with
    | nil =>
      exact absurd h (by simp [utf8Decode, utf8DecodeGo])
    | cons b bs2 =>
      rw [utf8Decode_cons] at h
      cases hone : utf8DecodeOne b bs2 with
      | none => rw [hone] at h; exact absurd h (by simp)
      | some pr =>
        obtain ⟨cp, rest⟩ := pr
        rw [hone] at h
        dsimp only at h
        rw [Option.map_eq_some'] at h
        obtain ⟨t2, hdec, heq⟩ := h
        injection heq with h1 h2
        obtain ⟨hsc, henc⟩ := utf8DecodeOne_sound hone
        obtain ⟨hts, hte⟩ := ih rest (h2 ▸ hdec)
        refine ⟨?_, ?_⟩
        · intro d hd
          rcases List.mem_cons.mp hd with hd1 | hd2
          · rw [hd1, ← h1]
            exact hsc
          · exact hts d hd2
        · have hstep : utf8Encode (c :: t) = encodeCp c ++ utf8Encode t := by
            simp [utf8Encode]
          rw [hstep, hte, ← h1, henc]

/-- Every Lean `Char` (= Rust `char`) holds a Unicode scalar value. -/
theorem char_toNat_isScalar (c : Char) : isScalar c.toNat := by
  have h := c.valid
  unfold isScalar Char.toNat
  rcases h with h | ⟨h1, h2⟩
  · exact Or.inl h
  · exact Or.inr ⟨by omega, h2⟩

/-- The bytes written for a piece of text always decode back to exactly that
text (its scalar values). -/
theorem utf8Decode_strBytes (s : Str) :
    utf8Decode (strBytes s) = some (s.map Char.toNat) := by
  apply utf8Decode_encode
  intro c hc
  rcases List.mem_map.mp hc with ⟨ch, _, rfl⟩
  exact char_toNat_isScalar ch

/-! ## The print loops -/

theorem foldl_write {κ β : Type _} (render : κ → List β) :
    ∀ (l : List κ) (acc : List β),
      l.foldl (fun a e => a ++ render e) acc = acc ++ (l.map render).flatten := by
  intro l
  induction l with
  | nil => intro acc; simp
  | cons e t ih =>
    intro acc
    simp [List.foldl_cons, ih, List.append_assoc]

theorem print_loop {ι κ β : Type _} (elems : ι → List κ)
    (render : ι → κ → List β) (nl : List β) :
    ∀ (l : List ι) (acc : List β),
      l.foldl (fun acc i =>
          ((elems i).foldl (fun a e => a ++ render i e) acc) ++ nl) acc
        = acc ++ (l.map fun i => ((elems i).map (render i)).flatten ++ nl).flatten := by
  intro l
  induction l with
  | nil => intro acc; simp
  | cons i t ih =>
    intro acc
    simp only [List.foldl_cons, List.map_cons, List.flatten_cons]
    rw [foldl_write, ih]
    simp [List.append_assoc]

/-- C6: rendering a fixed nested array or a growable nested buffer emits the
rows in order starting from row 0, within each row the text form of every
element left-to-right with no separator, and one line break after every row,
including the last. -/
theorem print_row_major {α : Type _} (disp : α → Str) :
    (∀ g : List (List α),
      printNested disp g =
        (g.map fun row =>
          (row.map fun e => strBytes (disp e)).flatten ++ strBytes ['\n']).flatten) ∧
    (∀ (w h : Nat) (g : Fin h → Fin w → α),
      printArray disp g =
        ((List.finRange h).map fun i =>
          ((List.finRange w).map fun j =>
            strBytes (disp (g i j))).flatten ++ strBytes ['\n']).flatten) := by
  constructor
  · intro g
    have h := print_loop (fun r => r) (fun _ e => strBytes (disp e))
      (strBytes ['\n']) g []
    simpa [printNested] using h
  · intro w h g
    have hh := print_loop (fun _ => List.finRange w)
      (fun i j => strBytes (disp (g i j))) (strBytes ['\n']) (List.finRange h) []
    simpa [printArray] using hh

/-- C7: the String DisplayGrid override returns a copy of the raw content
unchanged, and its print writes exactly the content bytes to the sink — the
printed bytes decode back to precisely the content, with nothing added. -/
theorem string_render_verbatim :
    (∀ s : Str, stringToString s = Except.ok s) ∧
    (∀ (stream : List Nat) (s : Str), stringPrint stream s = stream ++ strBytes s) ∧
    (∀ s : Str, utf8Decode (stringPrint [] s) = some (s.map Char.toNat)) := by
  refine ⟨fun _ => rfl, fun _ _ => rfl, fun s => ?_⟩
  show utf8Decode ([] ++ strBytes s) = _
  rw [List.nil_append, utf8Decode_strBytes]

/-- C9: the default `to_string` is exactly print-into-a-byte-sink followed by
UTF-8 decoding (the non-overriding nested-vector grid inherits it); it
returns `Ok l` precisely when the accumulated bytes are the UTF-8 encoding of
the scalar sequence `l`, and a decoding error precisely when the bytes are
not the UTF-8 encoding of any scalar sequence. -/
theorem to_string_default_decodes :
    (∀ {α : Type _} (disp : α → Str) (g : List (List α)),
      vecToString disp g = toStringDefault (printNested disp g)) ∧
    (∀ (bs l : List Nat),
      toStringDefault bs = Except.ok l ↔
        ((∀ c ∈ l, isScalar c) ∧ utf8Encode l = bs)) ∧
    (∀ bs : List Nat,
      toStringDefault bs = Except.error () ↔
        ¬ ∃ l, (∀ c ∈ l, isScalar c) ∧ utf8Encode l = bs) := by
  refine ⟨fun _ _ => rfl, ?_, ?_⟩
  · intro bs l
    unfold toStringDefault
    constructor
    · intro h
      cases hdec : utf8Decode bs with
      | none =>
        rw [hdec] at h
        exact absurd h (by simp)
      | some l2 =>
        rw [hdec] at h
        dsimp only at h
        injection h with h2
        exact h2 ▸ utf8Decode_sound l2 bs hdec
    · rintro ⟨hsc, rfl⟩
      rw [utf8Decode_encode hsc]
  · intro bs
    cases hdec : utf8Decode bs with
    | none =>
      unfold toStringDefault
      rw [hdec]
      simp only [true_iff]
      rintro ⟨l, hsc, rfl⟩
      rw [utf8Decode_encode hsc] at hdec
      exact absurd hdec (by simp)
    | some l =>
      unfold toStringDefault
      rw [hdec]
      constructor
      · intro h
        exact absurd h (by simp)
      · intro h
        exact absurd ⟨l, utf8Decode_sound l bs hdec⟩ h

/-- Witness for C9: a concrete two-character buffer whose print bytes decode. -/
theorem to_string_default_decodes_witness :
    (∀ c ∈ [0x41, 0xE9], isScalar c) ∧ utf8Encode [0x41, 0xE9] = [0x41, 0xC3, 0xA9] :=
  (to_string_default_decodes.{0}.2.1 [0x41, 0xC3, 0xA9] [0x41, 0xE9]).mp rfl

/-! ## Counting the writes of `BorderRect::draw_to` -/

theorem countP_flatMap_pair {α : Type _} (l : List Nat)
    (f g : Nat → ((Nat × Nat) × α)) (p : (Nat × Nat) × α → Bool) :
    List.countP p (l.flatMap fun i => [f i, g i]) =
      List.countP (fun i => p (f i)) l + List.countP (fun i => p (g i)) l := by
  induction l with
  | nil => simp
  | cons a t ih =>
    simp only [List.flatMap_cons, List.countP_append, List.countP_cons,
      List.countP_nil, ih]
    omega

theorem countP_range'_fst (a b px py : Nat) :
    ∀ (n s : Nat),
      List.countP (fun i => decide ((a + i, b) = (px, py))) (List.range' s n) =
        if b = py ∧ a + s ≤ px ∧ px < a + s + n then 1 else 0 := by
  intro n
  induction n with
  | zero =>
    intro s
    rw [show List.range' s 0 = [] from rfl, List.countP_nil]
    split_ifs <;> omega
  | succ n ih =>
    intro s
    rw [List.range'_succ, List.countP_cons, ih (s + 1)]
    simp only [Prod.mk.injEq, decide_eq_true_eq]
    split_ifs <;> omega

theorem countP_range'_snd (a b px py : Nat) :
    ∀ (n s : Nat),
      List.countP (fun i => decide ((a, b + i) = (px, py))) (List.range' s n) =
        if a = px ∧ b + s ≤ py ∧ py < b + s + n then 1 else 0 := by
  intro n
  induction n with
  | zero =>
    intro s
    rw [show List.range' s 0 = [] from rfl, List.countP_nil]
    split_ifs <;> omega
  | succ n ih =>
    intro s
    rw [List.range'_succ, List.countP_cons, ih (s + 1)]
    simp only [Prod.mk.injEq, decide_eq_true_eq]
    split_ifs <;> omega

theorem borderDrawTo_countP {α : Type _} (br : BorderRect α) (x y px py : Nat) :
    List.countP (fun q => decide (q.1 = (px, py))) (borderDrawTo br x y) =
      (((if y = py ∧ x + 1 ≤ px ∧ px < x + 1 + (br.width - 2) then 1 else 0) +
        (if y + br.height - 1 = py ∧ x + 1 ≤ px ∧ px < x + 1 + (br.width - 2) then 1 else 0)) +
       ((if x = px ∧ y + 1 ≤ py ∧ py < y + 1 + (br.height - 2) then 1 else 0) +
        (if x + br.width - 1 = px ∧ y + 1 ≤ py ∧ py < y + 1 + (br.height - 2) then 1 else 0))) +
      ((if x = px ∧ y = py then 1 else 0) +
       ((if x + br.width - 1 = px ∧ y = py then 1 else 0) +
        ((if x = px ∧ y + br.height - 1 = py then 1 else 0) +
         (if x + br.width - 1 = px ∧ y + br.height - 1 = py then 1 else 0)))) := by
  unfold borderDrawTo
  rw [List.countP_append, List.countP_append, countP_flatMap_pair,
    countP_flatMap_pair]
  dsimp only
  rw [countP_range'_fst, countP_range'_snd]
  have hbot : List.countP
      (fun i => decide ((x + i, y + br.height - 1) = (px, py)))
      (List.range' 1 (br.width - 2)) =
      if y + br.height - 1 = py ∧ x + 1 ≤ px ∧ px < x + 1 + (br.width - 2)
      then 1 else 0 := countP_range'_fst x (y + br.height - 1) px py _ 1
  have hright : List.countP
      (fun i => decide ((x + br.width - 1, y + i) = (px, py)))
      (List.range' 1 (br.height - 2)) =
      if x + br.width - 1 = px ∧ y + 1 ≤ py ∧ py < y + 1 + (br.height - 2)
      then 1 else 0 := countP_range'_snd (x + br.width - 1) y px py _ 1
  rw [hbot, hright]
  simp only [List.countP_cons, List.countP_nil, Prod.mk.injEq,
    decide_eq_true_eq]
  split_ifs <;> omega

set_option maxHeartbeats 4000000 in
/-- C4: for every bordered rectangle with width and height at least 2 and
every offset, `draw_to` writes the top and bottom edge elements exactly once
at each non-corner column of the top and bottom rows, the left and right edge
elements exactly once at each non-corner row of the outer columns, each of
the four corner elements exactly once at the four extreme coordinates, and
performs no write at any interior cell. -/
theorem borderRect_draw_cells {α : Type _} (br : BorderRect α) (x y : Nat)
    (hw : 2 ≤ br.width) (hh : 2 ≤ br.height) :
    (∀ i, 1 ≤ i → i < br.width - 1 →
      (List.countP (fun q => decide (q.1 = (x + i, y))) (borderDrawTo br x y) = 1 ∧
        ((x + i, y), br.render 1) ∈ borderDrawTo br x y) ∧
      (List.countP (fun q => decide (q.1 = (x + i, y + br.height - 1)))
          (borderDrawTo br x y) = 1 ∧
        ((x + i, y + br.height - 1), br.render 6) ∈ borderDrawTo br x y)) ∧
    (∀ j, 1 ≤ j → j < br.height - 1 →
      (List.countP (fun q => decide (q.1 = (x, y + j))) (borderDrawTo br x y) = 1 ∧
        ((x, y + j), br.render 3) ∈ borderDrawTo br x y) ∧
      (List.countP (fun q => decide (q.1 = (x + br.width - 1, y + j)))
          (borderDrawTo br x y) = 1 ∧
        ((x + br.width - 1, y + j), br.render 4) ∈ borderDrawTo br x y)) ∧
    ((List.countP (fun q => decide (q.1 = (x, y))) (borderDrawTo br x y) = 1 ∧
        ((x, y), br.render 0) ∈ borderDrawTo br x y) ∧
      (List.countP (fun q => decide (q.1 = (x + br.width - 1, y)))
          (borderDrawTo br x y) = 1 ∧
        ((x + br.width - 1, y), br.render 2) ∈ borderDrawTo br x y) ∧
      (List.countP (fun q => decide (q.1 = (x, y + br.height - 1)))
          (borderDrawTo br x y) = 1 ∧
        ((x, y + br.height - 1), br.render 5) ∈ borderDrawTo br x y) ∧
      (List.countP (fun q => decide (q.1 = (x + br.width - 1, y + br.height - 1)))
          (borderDrawTo br x y) = 1 ∧
        ((x + br.width - 1, y + br.height - 1), br.render 7) ∈ borderDrawTo br x y)) ∧
    (∀ i j, 1 ≤ i → i < br.width - 1 → 1 ≤ j → j < br.height - 1 →
      List.countP (fun q => decide (q.1 = (x + i, y + j))) (borderDrawTo br x y) = 0) := by
  have hmemTop : ∀ i, 1 ≤ i → i < br.width - 1 →
      ∀ e ∈ [((x + i, y), br.render 1), ((x + i, y + br.height - 1), br.render 6)],
        e ∈ borderDrawTo br x y := by
    intro i h1 h2 e he
    unfold borderDrawTo
    refine List.mem_append_left _ (List.mem_append_left _ ?_)
    exact List.mem_flatMap.mpr ⟨i, List.mem_range'_1.mpr ⟨h1, by omega⟩, he⟩
  have hmemSide : ∀ j, 1 ≤ j → j < br.height - 1 →
      ∀ e ∈ [((x, y + j), br.render 3), ((x + br.width - 1, y + j), br.render 4)],
        e ∈ borderDrawTo br x y := by
    intro j h1 h2 e he
    unfold borderDrawTo
    refine List.mem_append_left _ (List.mem_append_right _ ?_)
    exact List.mem_flatMap.mpr ⟨j, List.mem_range'_1.mpr ⟨h1, by omega⟩, he⟩
  have hmemCorner : ∀ e ∈ [((x, y), br.render 0), ((x + br.width - 1, y), br.render 2),
      ((x, y + br.height - 1), br.render 5),
      ((x + br.width - 1, y + br.height - 1), br.render 7)],
      e ∈ borderDrawTo br x y := by
    intro e he
    unfold borderDrawTo
    exact List.mem_append_right _ he
  refine ⟨?_, ?_, ?_, ?_⟩
  · intro i h1 h2
    refine ⟨⟨?_, hmemTop i h1 h2 _ (by simp)⟩, ?_, hmemTop i h1 h2 _ (by simp)⟩
    · rw [borderDrawTo_countP]
      split_ifs <;> omega
    · rw [borderDrawTo_countP]
      split_ifs <;> omega
  · intro j h1 h2
    refine ⟨⟨?_, hmemSide j h1 h2 _ (by simp)⟩, ?_, hmemSide j h1 h2 _ (by simp)⟩
    · rw [borderDrawTo_countP]
      split_ifs <;> omega
    · rw [borderDrawTo_countP]
      split_ifs <;> omega
  · refine ⟨⟨?_, hmemCorner _ (by simp)⟩, ⟨?_, hmemCorner _ (by simp)⟩,
      ⟨?_, hmemCorner _ (by simp)⟩, ⟨?_, hmemCorner _ (by simp)⟩⟩ <;>
      · rw [borderDrawTo_countP]
        split_ifs <;> omega
  · intro i j h1 h2 h3 h4
    rw [borderDrawTo_countP]
    split_ifs <;> omega

/-- Witness for C4: the writes of a 3-by-4 border at offset `(2, 5)`. -/
theorem borderRect_draw_cells_witness :
    (List.countP (fun q => decide (q.1 = (2 + 1, 5)))
        (borderDrawTo (⟨3, 4, fun k => k.val⟩ : BorderRect Nat) 2 5) = 1 ∧
      ((2 + 1, 5), (1 : Nat)) ∈ borderDrawTo (⟨3, 4, fun k => k.val⟩ : BorderRect Nat) 2 5) ∧
    List.countP (fun q => decide (q.1 = (2 + 1, 5 + 1)))
        (borderDrawTo (⟨3, 4, fun k => k.val⟩ : BorderRect Nat) 2 5) = 0 := by
  have h := borderRect_draw_cells (⟨3, 4, fun k => k.val⟩ : BorderRect Nat) 2 5
    (by decide) (by decide)
  exact ⟨⟨(h.1 1 (by decide) (by decide)).1.1, (h.1 1 (by decide) (by decide)).1.2⟩,
    h.2.2.2 1 1 (by decide) (by decide) (by decide) (by decide)⟩

/-! ## Structure of `splitNl`, `rustLines`, `joinNl` -/

theorem splitNl_ne_nil (s : Str) : splitNl s ≠ [] := by
  cases s with
  | nil => simp [splitNl]
  | cons c t =>
    cases hsp : splitNl t with
    | nil => simp [splitNl, hsp]
    | cons p ps =>
      simp only [splitNl, hsp]
      split_ifs <;> simp

theorem mem_splitNl_no_nl (s : Str) : ∀ p ∈ splitNl s, '\n' ∉ p := by
  induction s with
  | nil =>
    intro p hp
    simp [splitNl] at hp
    simp [hp]
  | cons c t ih =>
    intro p hp
    cases hsp : splitNl t with
    | nil => exact absurd hsp (splitNl_ne_nil t)
    | cons q qs =>
      rw [hsp] at ih
      simp only [splitNl, hsp] at hp
      by_cases hc : c = '\n'
      · rw [if_pos hc] at hp
        rcases List.mem_cons.mp hp with h1 | h2
        · simp [h1]
        · exact ih p h2
      · rw [if_neg hc] at hp
        rcases List.mem_cons.mp hp with h1 | h2
        · subst h1
          intro hmem
          rcases List.mem_cons.mp hmem with h3 | h4
          · exact hc h3.symm
          · exact ih q (List.mem_cons_self q qs) h4
        · exact ih p (List.mem_cons_of_mem q h2)

theorem mem_splitNl_chars (s : Str) :
    ∀ p ∈ splitNl s, ∀ ch ∈ p, ch ∈ s := by
  induction s with
  | nil =>
    intro p hp
    simp [splitNl] at hp
    simp [hp]
  | cons c t ih =>
    intro p hp ch hch
    cases hsp : splitNl t with
    | nil => exact absurd hsp (splitNl_ne_nil t)
    | cons q qs =>
      rw [hsp] at ih
      simp only [splitNl, hsp] at hp
      by_cases hc : c = '\n'
      · rw [if_pos hc] at hp
        rcases List.mem_cons.mp hp with h1 | h2
        · subst h1
          simp at hch
        · exact List.mem_cons_of_mem c (ih p h2 ch hch)
      · rw [if_neg hc] at hp
        rcases List.mem_cons.mp hp with h1 | h2
        · subst h1
          rcases List.mem_cons.mp hch with h3 | h4
          · exact h3 ▸ List.mem_cons_self c t
          · exact List.mem_cons_of_mem c (ih q (List.mem_cons_self q qs) ch h4)
        · exact List.mem_cons_of_mem c (ih p (List.mem_cons_of_mem q h2) ch hch)

theorem splitNl_append_nl (r : Str) (t : Str) (h : '\n' ∉ r) :
    splitNl (r ++ '\n' :: t) = r :: splitNl t := by
  induction r with
  | nil =>
    cases hsp : splitNl t with
    | nil => exact absurd hsp (splitNl_ne_nil t)
    | cons q qs =>
      simp [List.nil_append, splitNl, hsp]
  | cons c r2 ih =>
    have hc : c ≠ '\n' := fun hh => h (hh ▸ List.mem_cons_self c r2)
    have h2 : '\n' ∉ r2 := fun hh => h (List.mem_cons_of_mem c hh)
    simp only [List.cons_append, splitNl, List.append_eq, ih h2, if_neg hc]

theorem splitNl_no_nl (r : Str) (h : '\n' ∉ r) : splitNl r = [r] := by
  induction r with
  | nil => rfl
  | cons c r2 ih =>
    have hc : c ≠ '\n' := fun hh => h (hh ▸ List.mem_cons_self c r2)
    have h2 : '\n' ∉ r2 := fun hh => h (List.mem_cons_of_mem c hh)
    simp only [splitNl, ih h2, if_neg hc]

theorem stripCr_eq_self (r : Str) (h : r.getLast? ≠ some '\r') : stripCr r = r := by
  unfold stripCr
  cases hl : r.getLast? with
  | none => rfl
  | some c =>
    dsimp only
    have hcc : c ≠ '\r' := fun hc => h (hc ▸ hl)
    rw [if_neg hcc]

theorem rustLines_cons_of_nl (r t : Str) (h1 : '\n' ∉ r)
    (h2 : r.getLast? ≠ some '\r') :
    rustLines (r ++ '\n' :: t) = r :: rustLines t := by
  unfold rustLines
  rw [splitNl_append_nl r t h1]
  have hne := splitNl_ne_nil t
  have hlast : (r :: splitNl t).getLast? = (splitNl t).getLast? := by
    cases hsp : splitNl t with
    | nil => exact absurd hsp hne
    | cons q qs => simp [List.getLast?_cons]
  rw [List.dropLast_cons_of_ne_nil hne, List.map_cons, stripCr_eq_self r h2,
    hlast, List.cons_append]

theorem rustLines_no_nl_single (r : Str) (h : '\n' ∉ r) :
    rustLines r = if r = [] then [] else [r] := by
  unfold rustLines
  rw [splitNl_no_nl r h]
  rfl

theorem joinNl_cons (r : Str) (rows : List Str) (h : rows ≠ []) :
    joinNl (r :: rows) = r ++ '\n' :: joinNl rows := by
  cases rows with
  | nil => exact absurd rfl h
  | cons a t => rfl

theorem rustLines_joinNl :
    ∀ (rows : List Str),
      (∀ r ∈ rows, '\n' ∉ r ∧ r.getLast? ≠ some '\r') →
      rustLines (joinNl rows) =
        if rows.getLast? = some [] then rows.dropLast else rows := by
  intro rows
  induction rows with
  | nil =>
    intro _
    rw [show joinNl [] = [] from rfl, rustLines_no_nl_single [] (by simp)]
    simp
  | cons r rest ih =>
    intro hcond
    cases hrest : rest with
    | nil =>
      rw [show joinNl [r] = r from rfl,
        rustLines_no_nl_single r (hcond r (List.mem_cons_self r rest)).1]
      by_cases hr : r = []
      · subst hr
        simp
      · rw [if_neg hr, if_neg (by simp [hr])]
    | cons a t =>
      rw [← hrest]
      have hrne : rest ≠ [] := by simp [hrest]
      rw [joinNl_cons r rest hrne,
        rustLines_cons_of_nl r (joinNl rest)
          (hcond r (List.mem_cons_self r rest)).1
          (hcond r (List.mem_cons_self r rest)).2,
        ih fun q hq => hcond q (List.mem_cons_of_mem r hq)]
      have hlast : (r :: rest).getLast? = rest.getLast? := by
        rw [hrest]
        simp [List.getLast?_cons]
      rw [hlast, List.dropLast_cons_of_ne_nil hrne]
      by_cases hcase : rest.getLast? = some []
      · rw [if_pos hcase, if_pos hcase]
      · rw [if_neg hcase, if_neg hcase]

/-! ## `trimEnd`, `padRow` and `List.set` facts -/

theorem mem_of_mem_trimEnd {c : Char} {r : Str} (h : c ∈ trimEnd r) : c ∈ r := by
  unfold trimEnd at h
  rw [List.mem_reverse] at h
  exact List.mem_reverse.mp (List.Sublist.mem h (List.dropWhile_sublist isWs))

theorem trimEnd_getLast_not_ws {r : Str} {c : Char}
    (h : (trimEnd r).getLast? = some c) : isWs c = false := by
  unfold trimEnd at h
  rw [List.getLast?_reverse] at h
  have h2 := List.head?_dropWhile_not isWs r.reverse
  rw [h] at h2
  simpa using h2

theorem trimEnd_decomp (r : Str) :
    ∃ w, r = trimEnd r ++ w ∧ ∀ ch ∈ w, isWs ch = true := by
  refine ⟨(r.reverse.takeWhile isWs).reverse, ?_, ?_⟩
  · have h0 : r.reverse.takeWhile isWs ++ r.reverse.dropWhile isWs = r.reverse :=
      List.takeWhile_append_dropWhile isWs r.reverse
    have h1 := congrArg List.reverse h0
    rw [List.reverse_append, List.reverse_reverse] at h1
    unfold trimEnd
    exact h1.symm
  · intro ch hch
    rw [List.mem_reverse] at hch
    exact List.mem_takeWhile_imp hch

theorem trimEnd_append_ws (r w : Str) (h : ∀ ch ∈ w, isWs ch = true) :
    trimEnd (r ++ w) = trimEnd r := by
  unfold trimEnd
  rw [List.reverse_append, List.dropWhile_append]
  have hnil : w.reverse.dropWhile isWs = [] :=
    List.dropWhile_eq_nil_iff.mpr fun ch hch => h ch (List.mem_reverse.mp hch)
  rw [hnil]
  simp

theorem trimEnd_trimEnd (r : Str) : trimEnd (trimEnd r) = trimEnd r := by
  unfold trimEnd
  rw [List.reverse_reverse]
  cases hd : r.reverse.dropWhile isWs with
  | nil => simp
  | cons a t =>
    have h2 := List.head?_dropWhile_not isWs r.reverse
    rw [hd] at h2
    simp only [List.head?_cons] at h2
    rw [List.dropWhile_cons, if_neg (by simp [h2])]

theorem trimEnd_getElem? (r : Str) (i : Nat) (h : i < (trimEnd r).length) :
    r[i]? = (trimEnd r)[i]? := by
  obtain ⟨w, hw, _⟩ := trimEnd_decomp r
  conv_lhs => rw [hw]
  rw [List.getElem?_append_left h]

theorem set_getElem?_eq_self {α : Type _} :
    ∀ (l : List α) (n : Nat) (a : α), l[n]? = some a → l.set n a = l
  | [], _, _, h => by simp at h
  | b :: t, 0, a, h => by
    simp only [List.getElem?_cons_zero, Option.some.injEq] at h
    simp [h]
  | b :: t, n + 1, a, h => by
    simp only [List.getElem?_cons_succ] at h
    rw [List.set_cons_succ, set_getElem?_eq_self t n a h]

theorem padRow_of_lt (row : Str) (x : Nat) (h : x < row.length) :
    padRow row x = row := by
  rw [padRow_eq, show x + 1 - row.length = 0 from by omega]
  simp

theorem padRow_length (row : Str) (x : Nat) :
    (padRow row x).length = max row.length (x + 1) := by
  rw [padRow_eq]
  simp only [List.length_append, List.length_replicate]
  omega

/-- The heart of idempotence for the text buffer: re-padding, re-writing and
re-trimming an already written-and-trimmed row changes nothing. -/
theorem trim_set_pad_fixed (r : Str) (x : Nat) (c : Char) :
    trimEnd ((padRow (trimEnd ((padRow r x).set x c)) x).set x c)
      = trimEnd ((padRow r x).set x c) := by
  have hlen1 : x < ((padRow r x).set x c).length := by
    rw [List.length_set, padRow_length]
    omega
  have hx1 : ((padRow r x).set x c)[x]? = some c :=
    List.getElem?_set_self (by rw [padRow_length]; omega)
  by_cases hcase : x < (trimEnd ((padRow r x).set x c)).length
  · rw [padRow_of_lt _ _ hcase]
    have hxt : (trimEnd ((padRow r x).set x c))[x]? = some c := by
      rw [← trimEnd_getElem? _ x hcase]
      exact hx1
    rw [set_getElem?_eq_self _ _ _ hxt, trimEnd_trimEnd]
  · push_neg at hcase
    rw [padRow_eq, set_append_replicate _ _ hcase]
    obtain ⟨w, hw, hws⟩ := trimEnd_decomp ((padRow r x).set x c)
    have hcws : isWs c = true := by
      have hxw : ((padRow r x).set x c)[x]? =
          w[x - (trimEnd ((padRow r x).set x c)).length]? := by
        conv_lhs => rw [hw]
        rw [List.getElem?_append_right hcase]
      rw [hx1] at hxw
      exact hws c (List.getElem?_mem hxw.symm)
    have hall : ∀ ch ∈ List.replicate
        (x - (trimEnd ((padRow r x).set x c)).length) ' ' ++ [c],
        isWs ch = true := by
      intro ch hch
      rcases List.mem_append.mp hch with h1 | h2
      · rw [List.eq_of_mem_replicate h1]
        decide
      · rw [List.mem_singleton.mp h2]
        exact hcws
    rw [trimEnd_append_ws _ _ hall, trimEnd_trimEnd]

/-! ## Clean-row conditions for the round trip -/

theorem mem_of_getLast?_eq {α : Type _} {l : List α} {a : α}
    (h : l.getLast? = some a) : a ∈ l := by
  rw [List.getLast?_eq_getElem?] at h
  exact List.getElem?_mem h

theorem mem_of_mem_stripCr {ch : Char} {q : Str} (h : ch ∈ stripCr q) : ch ∈ q := by
  unfold stripCr at h
  cases hl : q.getLast? with
  | none =>
    rw [hl] at h
    exact h
  | some c =>
    rw [hl] at h
    dsimp only at h
    by_cases hc : c = '\r'
    · rw [if_pos hc] at h
      exact List.Sublist.mem h (List.dropLast_sublist q)
    · rw [if_neg hc] at h
      exact h

theorem mem_rustLines_structure (s : Str) :
    ∀ p ∈ rustLines s, ∃ q ∈ splitNl s, p = stripCr q ∨ p = q := by
  intro p hp
  unfold rustLines at hp
  rcases List.mem_append.mp hp with h1 | h2
  · rcases List.mem_map.mp h1 with ⟨q, hq, rfl⟩
    exact ⟨q, List.Sublist.mem hq (List.dropLast_sublist _), Or.inl rfl⟩
  · cases hl : (splitNl s).getLast? with
    | none =>
      rw [hl] at h2
      simp at h2
    | some l =>
      rw [hl] at h2
      dsimp only at h2
      by_cases he : l = []
      · rw [if_pos he] at h2
        simp at h2
      · rw [if_neg he] at h2
        rw [List.mem_singleton.mp h2]
        exact ⟨l, mem_of_getLast?_eq hl, Or.inr rfl⟩

theorem rustLines_no_nl (s : Str) : ∀ p ∈ rustLines s, '\n' ∉ p := by
  intro p hp hmem
  obtain ⟨q, hq, hpq⟩ := mem_rustLines_structure s p hp
  rcases hpq with h | h
  · exact mem_splitNl_no_nl s q hq (mem_of_mem_stripCr (h ▸ hmem))
  · exact mem_splitNl_no_nl s q hq (h ▸ hmem)

theorem rustLines_chars (s : Str) : ∀ p ∈ rustLines s, ∀ ch ∈ p, ch ∈ s := by
  intro p hp ch hch
  obtain ⟨q, hq, hpq⟩ := mem_rustLines_structure s p hp
  rcases hpq with h | h
  · exact mem_splitNl_chars s q hq ch (mem_of_mem_stripCr (h ▸ hch))
  · exact mem_splitNl_chars s q hq ch (h ▸ hch)

theorem rustLines_clean (s : Str) (hcr : '\r' ∉ s) :
    ∀ p ∈ rustLines s, '\n' ∉ p ∧ p.getLast? ≠ some '\r' := by
  intro p hp
  refine ⟨rustLines_no_nl s p hp, fun hlast => ?_⟩
  exact hcr (rustLines_chars s p hp '\r' (mem_of_getLast?_eq hlast))

/-! ## The row-level effect of `String::draw` -/

/-- The row list produced by one `String::draw` on a row list `rows`
(everything `drawString` does between `lines()` and the final `join`). -/
def drawRows (rows : List Str) (x y : Nat) (c : Char) : List Str :=
  (growRows rows y).set y
    (trimEnd ((padRow ((growRows rows y).getD y []) x).set x c))

theorem drawString_eq_joinNl_drawRows (s : Str) (x y : Nat) (c : Char) :
    drawString s x y c = joinNl (drawRows (rustLines s) x y c) := rfl

theorem growRows_length (rows : List Str) (y : Nat) :
    (growRows rows y).length = max rows.length (y + 1) := by
  rw [growRows_eq]
  simp only [List.length_append, List.length_replicate]
  omega

theorem growRows_of_lt (rows : List Str) (y : Nat) (h : y < rows.length) :
    growRows rows y = rows := by
  rw [growRows_eq, show y + 1 - rows.length = 0 from by omega]
  simp

theorem mem_growRows {rows : List Str} {y : Nat} {r : Str}
    (h : r ∈ growRows rows y) : r ∈ rows ∨ r = [] := by
  rw [growRows_eq] at h
  rcases List.mem_append.mp h with h1 | h2
  · exact Or.inl h1
  · exact Or.inr (List.eq_of_mem_replicate h2)

theorem drawRows_length (rows : List Str) (x y : Nat) (c : Char) :
    (drawRows rows x y c).length = max rows.length (y + 1) := by
  unfold drawRows
  rw [List.length_set, growRows_length]

theorem drawRows_getElem?_self (rows : List Str) (x y : Nat) (c : Char) :
    (drawRows rows x y c)[y]? =
      some (trimEnd ((padRow ((growRows rows y).getD y []) x).set x c)) := by
  unfold drawRows
  exact List.getElem?_set_self (by rw [growRows_length]; omega)

theorem drawRows_getElem?_ne (rows : List Str) (x y : Nat) (c : Char)
    (i : Nat) (hiy : i ≠ y) :
    (drawRows rows x y c)[i]? = (growRows rows y)[i]? := by
  unfold drawRows
  exact List.getElem?_set_ne fun hh => hiy hh.symm

theorem drawRows_clean (rows : List Str) (x y : Nat) (c : Char)
    (hclean : ∀ r ∈ rows, '\n' ∉ r ∧ r.getLast? ≠ some '\r')
    (hc : c ≠ '\n') :
    ∀ r ∈ drawRows rows x y c, '\n' ∉ r ∧ r.getLast? ≠ some '\r' := by
  intro r hr
  rcases List.mem_or_eq_of_mem_set hr with hmem | heq
  · rcases mem_growRows hmem with h1 | h2
    · exact hclean r h1
    · subst h2
      exact ⟨by simp, by simp⟩
  · subst heq
    constructor
    · intro hnl
      have h2 := mem_of_mem_trimEnd hnl
      rcases List.mem_or_eq_of_mem_set h2 with h3 | h4
      · rw [padRow_eq] at h3
        rcases List.mem_append.mp h3 with h5 | h6
        · have hr0 : (growRows rows y).getD y [] ∈ rows ∨
              (growRows rows y).getD y [] = [] := by
            rw [List.getD_eq_getElem?_getD]
            cases hg : (growRows rows y)[y]? with
            | none => simp
            | some q =>
              have := mem_growRows (List.getElem?_mem hg)
              simpa using this
          rcases hr0 with hq | hq
          · exact (hclean _ hq).1 h5
          · rw [hq] at h5
            simp at h5
        · have := List.eq_of_mem_replicate h6
          simp at this
      · exact hc h4.symm
    · intro hlast
      have := trimEnd_getLast_not_ws hlast
      rw [show isWs '\r' = true from by decide] at this
      simp at this

/-! ## The lines of a buffer after a write -/

theorem rustLines_drawString (s : Str) (x y : Nat) (c : Char)
    (hcr : '\r' ∉ s) (hc : c ≠ '\n') :
    rustLines (drawString s x y c) =
      if (drawRows (rustLines s) x y c).getLast? = some []
      then (drawRows (rustLines s) x y c).dropLast
      else drawRows (rustLines s) x y c := by
  rw [drawString_eq_joinNl_drawRows]
  exact rustLines_joinNl _ (drawRows_clean _ x y c (rustLines_clean s hcr) hc)

theorem drawRows_last_empty (rows : List Str) (x y : Nat) (c : Char)
    (hlast : rows.getLast? ≠ some [])
    (hL : (drawRows rows x y c).getLast? = some []) :
    (drawRows rows x y c).length = y + 1 ∧ (drawRows rows x y c)[y]? = some [] := by
  have hlen : (drawRows rows x y c).length = max rows.length (y + 1) :=
    drawRows_length rows x y c
  by_cases hy : rows.length ≤ y
  · have hl1 : (drawRows rows x y c).length = y + 1 := by omega
    refine ⟨hl1, ?_⟩
    rw [List.getLast?_eq_getElem?, hl1] at hL
    simpa using hL
  · push_neg at hy
    by_cases hyl : y = rows.length - 1
    · have hl1 : (drawRows rows x y c).length = y + 1 := by omega
      refine ⟨hl1, ?_⟩
      rw [List.getLast?_eq_getElem?, hl1] at hL
      simpa using hL
    · exfalso
      have hlen2 : (drawRows rows x y c).length = rows.length := by omega
      rw [List.getLast?_eq_getElem?, hlen2,
        drawRows_getElem?_ne rows x y c (rows.length - 1) (by omega),
        growRows_of_lt rows y hy, ← List.getLast?_eq_getElem?] at hL
      exact hlast hL

theorem drawRows_of_stable (rows2 : List Str) (x y : Nat) (c : Char) (r1 : Str)
    (hy : y < rows2.length) (hget : rows2[y]? = some r1)
    (hfix : trimEnd ((padRow r1 x).set x c) = r1) :
    drawRows rows2 x y c = rows2 := by
  unfold drawRows
  rw [growRows_of_lt _ _ hy,
    show rows2.getD y [] = r1 from by rw [List.getD_eq_getElem?_getD, hget]; rfl,
    hfix]
  exact set_getElem?_eq_self _ _ _ hget

theorem drawRows_grow_stable (rows2 : List Str) (x y : Nat) (c : Char) (r1 : Str)
    (hlen : rows2.length = y)
    (hfix : trimEnd ((padRow r1 x).set x c) = r1) (hr1 : r1 = []) :
    drawRows rows2 x y c = rows2 ++ [[]] := by
  unfold drawRows
  rw [growRows_eq, hlen, show y + 1 - y = 1 from by omega]
  have hget : (rows2 ++ List.replicate 1 ([] : Str))[y]? = some [] := by
    rw [List.getElem?_append_right (by omega), List.getElem?_replicate,
      if_pos (by omega)]
  have hT : trimEnd ((padRow ([] : Str) x).set x c) = [] := by
    rw [← hr1, hfix]
  rw [show (rows2 ++ List.replicate 1 ([] : Str)).getD y [] = [] from by
      rw [List.getD_eq_getElem?_getD, hget]; rfl,
    hT, set_getElem?_eq_self _ _ _ hget]
  rfl

/-- The growable text buffer write, repeated: idempotent under the amended
conditions (no carriage returns in the buffer, element not a line break,
buffer not ending in a double line break). -/
theorem drawString_idem (s : Str) (x y : Nat) (c : Char) (hcr : '\r' ∉ s)
    (hc : c ≠ '\n') (hlast : (rustLines s).getLast? ≠ some []) :
    drawString (drawString s x y c) x y c = drawString s x y c := by
  have hr1 := drawRows_getElem?_self (rustLines s) x y c
  rw [drawString_eq_joinNl_drawRows (drawString s x y c) x y c,
    rustLines_drawString s x y c hcr hc,
    drawString_eq_joinNl_drawRows s x y c]
  by_cases hL : (drawRows (rustLines s) x y c).getLast? = some []
  · rw [if_pos hL]
    obtain ⟨hlen1, hy1⟩ := drawRows_last_empty (rustLines s) x y c hlast hL
    have hr1e : trimEnd ((padRow ((growRows (rustLines s) y).getD y []) x).set x c)
        = [] := Option.some.inj (hr1.symm.trans hy1)
    have hne : drawRows (rustLines s) x y c ≠ [] := by
      intro hh
      rw [hh] at hL
      simp at hL
    have hrecon : (drawRows (rustLines s) x y c).dropLast ++ [[]]
        = drawRows (rustLines s) x y c := by
      have h2 := List.dropLast_append_getLast hne
      have h3 : (drawRows (rustLines s) x y c).getLast hne = [] := by
        have h4 := List.getLast?_eq_getLast _ hne
        rw [h4] at hL
        exact Option.some.inj hL
      rw [h3] at h2
      exact h2
    rw [drawRows_grow_stable (drawRows (rustLines s) x y c).dropLast x y c
      (trimEnd ((padRow ((growRows (rustLines s) y).getD y []) x).set x c))
      (by rw [List.length_dropLast, hlen1]; omega)
      (trim_set_pad_fixed _ x c) hr1e, hrecon]
  · rw [if_neg hL]
    rw [drawRows_of_stable (drawRows (rustLines s) x y c) x y c
      (trimEnd ((padRow ((growRows (rustLines s) y).getD y []) x).set x c))
      (by rw [drawRows_length]; omega) hr1 (trim_set_pad_fixed _ x c)]

/-! ## Claim theorems: C8 and C10 -/

/-- C8 counterexample: writing a line-break character twice at the same
position of a growable text buffer is not idempotent — on `"a   b"` writing
`'\n'` at `(2,0)` once gives `"a \n b"`, twice gives `"a\n b"`. -/
theorem string_draw_not_idem :
    drawString (drawString "a   b".toList 2 0 '\n') 2 0 '\n'
      ≠ drawString "a   b".toList 2 0 '\n' := by decide

/-- C8 (amended): writing the same element twice at the same position equals
writing it once, for fixed nested arrays (always), for growable nested
buffers (always), and for growable text buffers provided the content has no
carriage return, the element is not a line break, and the split lines do not
end with an empty line (the buffer does not end in a double line break).
Without those text-buffer conditions the claim fails. -/
theorem draw_idem :
    (∀ (α : Type _) (w h : Nat) (g : Fin h → Fin w → α) (x : Fin w) (y : Fin h)
      (e : α), drawArray (drawArray g x y e) x y e = drawArray g x y e) ∧
    (∀ (α : Type _) (v : List (List α)) (x y : Nat) (e d : α),
      drawVec (drawVec v x y e d) x y e d = drawVec v x y e d) ∧
    (∀ (s : Str) (x y : Nat) (c : Char), '\r' ∉ s → c ≠ '\n' →
      (rustLines s).getLast? ≠ some [] →
      drawString (drawString s x y c) x y c = drawString s x y c) := by
  refine ⟨?_, ?_, fun s x y c hcr hc hlast => drawString_idem s x y c hcr hc hlast⟩
  · intro α w h g x y e
    funext i j
    simp only [drawArray]
    split_ifs <;> rfl
  · intro α v x y e d
    have hget := drawVec_getElem?_self v x y e d
    conv_lhs => rw [drawVec_eq]
    rw [show y + 1 - (drawVec v x y e d).length = 0 from by
        rw [drawVec_length]; omega]
    simp only [List.replicate_zero, List.append_nil]
    have hgd : (drawVec v x y e d).getD y [] =
        (v.getD y [] ++ List.replicate (x + 1 - (v.getD y []).length) d).set x e := by
      rw [List.getD_eq_getElem?_getD, hget]
      rfl
    rw [hgd]
    rw [show x + 1 -
        ((v.getD y [] ++ List.replicate (x + 1 - (v.getD y []).length) d).set x e).length
          = 0 from by
        rw [List.length_set]
        simp only [List.length_append, List.length_replicate]
        omega]
    simp only [List.replicate_zero, List.append_nil]
    rw [set_getElem?_eq_self _ _ _ (List.getElem?_set_self (by
      simp only [List.length_append, List.length_replicate]
      omega))]
    exact set_getElem?_eq_self _ _ _ hget

/-- Witness for C8 at concrete inputs. -/
theorem draw_idem_witness :
    drawString (drawString "ab".toList 0 0 'z') 0 0 'z'
      = drawString "ab".toList 0 0 'z' :=
  draw_idem.{0, 0}.2.2 "ab".toList 0 0 'z' (by decide) (by decide) (by decide)

/-- C10 counterexample: with CR-free content `"a\n\n"` (two lines: `"a"` and
`""`) and a write at `(0,0)` — so `y = 0` is within the line count — line 1
is not preserved: it disappears («a\n\n» becomes «x\n»). -/
theorem string_draw_frame_cex :
    ¬ ((rustLines (drawString "a\n\n".toList 0 0 'x'))[1]?
        = (rustLines "a\n\n".toList)[1]?) := by decide

/-- C10 (amended): a text-buffer write at `(x,y)` with `y` within the current
line count preserves every line other than line `y` character-for-character,
provided the content has no carriage return, the written element is not a
line break, and the split lines do not end with an empty line.  (Without the
last two conditions the claim fails: a written line break splits line `y` and
shifts the following lines, and a trailing empty line is silently dropped by
the re-join.) -/
theorem string_draw_frame (s : Str) (x y : Nat) (c : Char) (hcr : '\r' ∉ s)
    (hc : c ≠ '\n') (hy : y < (rustLines s).length)
    (hlast : (rustLines s).getLast? ≠ some []) :
    ∀ i, i ≠ y →
      (rustLines (drawString s x y c))[i]? = (rustLines s)[i]? := by
  intro i hiy
  rw [rustLines_drawString s x y c hcr hc]
  have hgrow : growRows (rustLines s) y = rustLines s := growRows_of_lt _ _ hy
  have hne : (drawRows (rustLines s) x y c)[i]? = (rustLines s)[i]? := by
    rw [drawRows_getElem?_ne _ x y c i hiy, hgrow]
  by_cases hL : (drawRows (rustLines s) x y c).getLast? = some []
  · rw [if_pos hL]
    obtain ⟨hlen1, _⟩ := drawRows_last_empty (rustLines s) x y c hlast hL
    have hlen0 : (rustLines s).length = y + 1 := by
      have := drawRows_length (rustLines s) x y c
      omega
    rw [List.getElem?_dropLast]
    by_cases hi : i < y
    · rw [if_pos (by omega)]
      exact hne
    · rw [if_neg (by omega), List.getElem?_eq_none (by omega)]
  · rw [if_neg hL]
    exact hne

/-- Witness for C10 at concrete inputs: writing `'z'` at `(0,1)` of
`"ab\ncd"` leaves line 0 untouched. -/
theorem string_draw_frame_witness :
    (rustLines (drawString "ab\ncd".toList 0 1 'z'))[0]?
      = (rustLines "ab\ncd".toList)[0]? :=
  string_draw_frame "ab\ncd".toList 0 1 'z' (by decide) (by decide) (by decide)
    (by decide) 0 (by decide)

/-- Witness for C2 at concrete inputs: drawing `5` at `(2,3)` into `[[7]]`. -/
theorem vec_draw_growth_witness :
    ((drawVec ([[7]] : List (List Nat)) 2 3 5 0).length = 3 + 1 ∧
      ∀ i, ([[7]] : List (List Nat)).length ≤ i → i < 3 →
        (drawVec ([[7]] : List (List Nat)) 2 3 5 0).getD i [] = []) ∧
    (drawVec ([[7]] : List (List Nat)) 2 3 5 0).getD 3 [] =
      ([[7]] : List (List Nat)).getD 3 [] ++
        List.replicate (2 - (([[7]] : List (List Nat)).getD 3 []).length) 0 ++ [5] :=
  ⟨(vec_draw_growth [[7]] 2 3 5 0).1 (by decide),
    (vec_draw_growth [[7]] 2 3 5 0).2 (by decide)⟩

end Grux
